import Mathlib

/-!
# Verification of the slab allocator / hybrid key-value example (`slab.cpp`)

A shallow embedding of `examples::slab<T>` (a slot allocator over a persistent
segment vector with an intrusive free list) and of `examples::kv<T>` (a hybrid
store with a volatile `unordered_map` index), together with proofs of the
specified properties.

Modelling conventions:
* `slab_index` is `pobj::p<uint64_t>`; all its arithmetic is carried out
  modulo `2 ^ 64` (`U64`) exactly where the C++ does `uint64_t` arithmetic.
* The `segment_vector` is modelled as a Lean `List` (append-only growth,
  `vec.at` bounds check becomes `List.get?`). Its capacity limits and the
  `pmem::obj::transaction` machinery (which only matters under crash or
  abort injection, not modelled here) are the storage substrate of the spec.
* The per-entry `union { p<T> occupied; slab_entry_vacant vacant; }` is
  modelled as a sum `T ⊕ Nat`: `.inl payload` after the occupied member was
  written, `.inr next` after the vacant member was written.  Reading a union
  member that is not the active one is a byte reinterpretation in C++ whose
  value is memory-layout dependent; the model returns the raw stored content
  where the code returns the storage cell itself (`slab::get`), and `0` for
  the one link read that is unreachable in well-formed states
  (`unionNext` on an occupied cell).
* `std::out_of_range` thrown by `vec.at` is modelled as `SlabErr.outOfRange`
  in an `Except`.
-/

/-- `2 ^ 64`, the modulus of `uint64_t` (`slab_index`) arithmetic. -/
def U64 : Nat := 2 ^ 64

/-- `enum entry_type : uint32_t { ENTRY_VACANT, ENTRY_OCCUPIED }`. -/
inductive EntryType : Type
| vacant
| occupied
deriving DecidableEq

/-- `struct slab_entry`: an occupancy tag and the storage cell holding the
`union { p<T> occupied; slab_entry_vacant vacant; }` — `.inl` is the
`occupied` payload member, `.inr` is the `vacant.next` link member. -/
structure SlabEntry (T : Type) where
  type : EntryType
  data : T ⊕ Nat
deriving DecidableEq

/-- The state of `examples::slab<T>`: the segment vector `vec` and the
`vacant` free-list head (stored offset by one: `0` means empty list). -/
structure SlabState (T : Type) where
  vec : List (SlabEntry T)
  vacant : Nat
deriving DecidableEq

/-- Error from a failed `vec.at(idx)` bounds check (`std::out_of_range`). -/
inductive SlabErr : Type
| outOfRange
deriving DecidableEq

/-- A freshly created pool: pmemobj zero-initialises the root object, so the
vector is empty and `vacant = 0` ("empty free list" by the offset-by-one
encoding). -/
def emptySlab (T : Type) : SlabState T := ⟨[], 0⟩

/-- `has_vacant(): return vacant != 0`. -/
def SlabState.hasVacant (s : SlabState T) : Bool := s.vacant != 0

/-- `vacant_index(): return vacant - 1` (only called when `vacant != 0`,
so no `uint64_t` underflow occurs here). -/
def SlabState.vacantIndex (s : SlabState T) : Nat := s.vacant - 1

/-- `set_vacant(entry): vacant = entry + 1`, in `uint64_t` arithmetic. -/
def setVacant (entry : Nat) : Nat := (entry + 1) % U64

/-- Reading `entry.vacant.next` through the union.  When the cell last had
its `vacant` member written this is the stored link; when it holds an
`occupied` payload the C++ read reinterprets payload bytes (memory-layout
dependent, modelled as `0`) — that branch is unreachable whenever the free
chain visits only Vacant slots, which C1 proves for all reachable states. -/
def unionNext : T ⊕ Nat → Nat
| .inr n => n
| .inl _ => 0

/-- `slab::insert(value)`: if the free list is non-empty, reuse the head slot
(read its `vacant.next`, write the payload, mark it `ENTRY_OCCUPIED` and
advance `vacant` to the stored link — `next - 1` then `set_vacant`'s `+ 1`,
both mod `2 ^ 64`); otherwise `emplace_back` a new occupied slot and return
`vec.size() - 1`. -/
def SlabState.insert (s : SlabState T) (value : T) :
    Except SlabErr (SlabState T × Nat) :=
  if s.hasVacant then
    let idx := s.vacantIndex
    match s.vec[idx]? with
    | none => .error .outOfRange
    | some entry =>
      let nextVacant := (unionNext entry.data + (U64 - 1)) % U64
      .ok (⟨s.vec.set idx ⟨.occupied, .inl value⟩, setVacant nextVacant⟩, idx)
  else
    .ok (⟨s.vec ++ [⟨.occupied, .inl value⟩], s.vacant⟩, s.vec.length)

/-- `slab::remove(idx)`: mark the slot `ENTRY_VACANT`, store the old free
head (raw, still offset by one) into its `vacant.next`, and point `vacant`
at `idx` via `set_vacant`. -/
def SlabState.remove (s : SlabState T) (idx : Nat) :
    Except SlabErr (SlabState T) :=
  match s.vec[idx]? with
  | none => .error .outOfRange
  | some _ =>
    .ok ⟨s.vec.set idx ⟨.vacant, .inr s.vacant⟩, setVacant idx⟩

/-- `slab::get(idx)`: a bare bounds-checked read of the storage cell —
`entry.occupied.get_rw()` is returned with no occupancy check, so the caller
receives whatever the union holds. -/
def SlabState.get (s : SlabState T) (idx : Nat) :
    Except SlabErr (T ⊕ Nat) :=
  match s.vec[idx]? with
  | none => .error .outOfRange
  | some entry => .ok entry.data

/-- One loop step of a `foreach` worker: skip the slot if
`n->type == ENTRY_VACANT`, otherwise the callback receives the index and the
storage cell read as the `occupied` member. -/
def SlabState.visitOf (s : SlabState T) (i : Nat) :
    Option (Nat × (T ⊕ Nat)) :=
  match s.vec[i]? with
  | none => none
  | some e => if e.type = .vacant then none else some (i, e.data)

/-- The callback invocations one worker performs on the chunk `[p, e)`, in
ascending index order. -/
def SlabState.chunkVisits (s : SlabState T) (p e : Nat) :
    List (Nat × (T ⊕ Nat)) :=
  (List.range' p (e - p)).filterMap s.visitOf

/-- The chunk-splitting `do … while (itr != vec.cend())` loop of
`slab::foreach`: from position `p` emit the chunk
`[p, p + min (L - p) partsize)` and continue while the end of the vector has
not been reached.  The loop advances by at least one slot per iteration
whenever `partsize ≥ 1`, so `L - p` bounds the remaining iteration count and
is used as structural fuel; fuel `0` coincides with the `p = L` final
iteration.  (With `partsize = 0` and `p < L` the C++ loop would not
terminate; that configuration is unreachable from `foreach`, which only
computes `partsize = 0` when the vector is empty.) -/
def chunksGoFuel (L ps : Nat) : Nat → Nat → List (Nat × Nat)
| 0, p => [(p, p)]
| fuel + 1, p =>
  let e := p + min (L - p) ps
  if p < e ∧ e < L then (p, e) :: chunksGoFuel L ps fuel e else [(p, e)]

/-- The list of `[start, end)` chunks the loop produces from position `p`. -/
def chunksGo (L ps p : Nat) : List (Nat × Nat) := chunksGoFuel L ps (L - p) p

/-- `partsize = vec.size() > nthreads ? vec.size() / nthreads : vec.size()`. -/
def partSize (L N : Nat) : Nat := if L > N then L / N else L

/-- All chunks of a `foreach` over `L` slots with `nthreads = N`. -/
def foreachChunks (L N : Nat) : List (Nat × Nat) := chunksGo L (partSize L N) 0

/-- The chunks `slab::foreach` distributes over its async workers. -/
def SlabState.scanChunks (s : SlabState T) (N : Nat) : List (Nat × Nat) :=
  foreachChunks s.vec.length N

/-- Per-worker callback invocation lists of `foreach` with `nthreads = N`. -/
def SlabState.foreachVisits (s : SlabState T) (N : Nat) :
    List (List (Nat × (T ⊕ Nat))) :=
  (s.scanChunks N).map fun c => s.chunkVisits c.1 c.2

/-- All callback invocations of a `foreach` run, worker by worker. -/
def SlabState.scanVisits (s : SlabState T) (N : Nat) :
    List (Nat × (T ⊕ Nat)) :=
  (s.foreachVisits N).flatten

/-- `struct foo { p<uint64_t> key; p<uint64_t> value; }`. -/
structure Foo where
  key : Nat
  value : Nat
deriving DecidableEq

/-- The volatile index `std::unordered_map<uint64_t, slab_index>`, modelled
as an association list with unique keys (iteration order is irrelevant to
every property considered). -/
abbrev VIndex : Type := List (Nat × Nat)

/-- `map.find(key)` as an `Option`. -/
def VIndex.find (m : VIndex) (k : Nat) : Option Nat := List.lookup k m

/-- `map[key]` (`unordered_map::operator[]`): returns the mapped value, and
when the key is absent first default-inserts it — value-initialising the
mapped `pobj::p<uint64_t>`, which zero-initialises it — so the absent case
yields `0` and mutates the map. -/
def VIndex.index (m : VIndex) (k : Nat) : Nat × VIndex :=
  match List.lookup k m with
  | some v => (v, m)
  | none => (0, m ++ [(k, 0)])

/-- `map[key] = idx`: insert-or-assign. -/
def VIndex.assign (m : VIndex) (k v : Nat) : VIndex :=
  match List.lookup k m with
  | some _ => m.map fun p => if p.1 = k then (k, v) else p
  | none => m ++ [(k, v)]

/-- `map.erase(key)`. -/
def VIndex.erase (m : VIndex) (k : Nat) : VIndex :=
  m.filter fun p => p.1 != k

/-- The state of `examples::kv<foo>`: the slab plus the volatile index. -/
structure KvState where
  slab : SlabState Foo
  map : VIndex
deriving DecidableEq

/-- A `kv` over a freshly created pool (empty slab, index rebuilt from it is
empty). -/
def kv0 : KvState := ⟨emptySlab Foo, []⟩

/-- `kv::insert(f)`: reject a key already in the index (`return false`, no
mutation); otherwise `slab.insert` then `map[f.key] = idx`.  The C++ `catch`
of `pmem::transaction_error` (commit failure, not modelled — no fault
injection here) is never reached; `std::out_of_range` from `vec.at` is not
caught and propagates. -/
def KvState.insert (st : KvState) (f : Foo) :
    KvState × Except SlabErr Bool :=
  if (st.map.find f.key).isSome then (st, .ok false)
  else
    match st.slab.insert f with
    | .error e => (st, .error e)
    | .ok (sl, idx) => (⟨sl, st.map.assign f.key idx⟩, .ok true)

/-- `kv::remove(key)`: `auto f = map[key]` (default-inserting `key ↦ 0` when
absent), then `slab.remove(f)`, then `map.erase(key)`.  If `slab.remove`
throws, the erase is skipped and the default insertion stays. -/
def KvState.remove (st : KvState) (key : Nat) :
    KvState × Except SlabErr Unit :=
  let fm := st.map.index key
  match st.slab.remove fm.1 with
  | .error e => (⟨st.slab, fm.2⟩, .error e)
  | .ok sl => (⟨sl, fm.2.erase key⟩, .ok ())

/-- `kv::get(key)`: `auto f = map[key]` (default-inserting `key ↦ 0` when
absent), then `slab.get(f)`. -/
def KvState.get (st : KvState) (key : Nat) :
    KvState × Except SlabErr (Foo ⊕ Nat) :=
  let fm := st.map.index key
  (⟨st.slab, fm.2⟩, st.slab.get fm.1)

/-- A slab-level operation, for stating invariants over operation
sequences. -/
inductive SlabOp (T : Type) : Type
| ins (v : T)
| rem (idx : Nat)

/-- Execute one operation, `none` when the underlying call throws. -/
def stepOp (s : SlabState T) : SlabOp T → Option (SlabState T)
| .ins v => match s.insert v with
  | .ok p => some p.1
  | .error _ => none
| .rem i => match s.remove i with
  | .ok s' => some s'
  | .error _ => none

/-- Execute a sequence of operations. -/
def runOps (s : SlabState T) : List (SlabOp T) → Option (SlabState T)
| [] => some s
| op :: rest => match stepOp s op with
  | some s' => runOps s' rest
  | none => none

/-- A sequence of operations in which every `rem` targets an index that is
currently in range and Occupied (the claims' precondition on removes), and
every operation completes. -/
inductive ValidSeq : SlabState T → List (SlabOp T) → Prop
| nil (s : SlabState T) : ValidSeq s []
| ins {s : SlabState T} {v : T} {s' : SlabState T} {i : Nat}
    {rest : List (SlabOp T)}
    (h : s.insert v = .ok (s', i)) (hr : ValidSeq s' rest) :
    ValidSeq s (.ins v :: rest)
| rem {s : SlabState T} {idx : Nat} {s' : SlabState T}
    {rest : List (SlabOp T)} {e : SlabEntry T}
    (he : s.vec[idx]? = some e) (ho : e.type = .occupied)
    (hrm : s.remove idx = .ok s') (hr : ValidSeq s' rest) :
    ValidSeq s (.rem idx :: rest)

/-- `ChainRepr vec raw c`: starting from the raw (offset-by-one) head value
`raw`, following the `vacant.next` links through `vec` visits exactly the
indices of `c` in order and terminates at the `0` sentinel.  This is the
chain reachable from the free-list head. -/
inductive ChainRepr (vec : List (SlabEntry T)) : Nat → List Nat → Prop
| nil : ChainRepr vec 0 []
| cons {i raw' : Nat} {rest : List Nat} (e : SlabEntry T)
    (he : vec[i]? = some e) (ht : e.type = .vacant)
    (hd : e.data = .inr raw') (hr : ChainRepr vec raw' rest) :
    ChainRepr vec (i + 1) (i :: rest)

/-- The free-list invariant: some terminating chain runs from `vacant`,
visiting pairwise-distinct slots, and a slot index is on the chain exactly
when its entry is tagged Vacant. -/
def FreeInv (s : SlabState T) : Prop :=
  ∃ chain : List Nat,
    ChainRepr s.vec s.vacant chain ∧ chain.Nodup ∧
    ∀ i e, s.vec[i]? = some e → (i ∈ chain ↔ e.type = .vacant)

/-! ## Arithmetic of the offset-by-one head encoding -/

theorem U64_pos : 0 < U64 := by decide

theorem setVacant_eq {e : Nat} (h : e + 1 < U64) : setVacant e = e + 1 :=
  Nat.mod_eq_of_lt h

/-- `set_vacant(next - 1)` restores exactly the raw stored link: the
`uint64_t` decrement (underflowing at `0`) and increment cancel. -/
theorem setVacant_roundTrip {r : Nat} (hr : r < U64) :
    setVacant ((r + (U64 - 1)) % U64) = r := by
  have hp : 0 < U64 := U64_pos
  unfold setVacant
  cases r with
  | zero =>
    rw [Nat.zero_add, Nat.mod_eq_of_lt (Nat.sub_lt hp Nat.one_pos),
      Nat.sub_add_cancel hp, Nat.mod_self]
  | succ m =>
    have h1 : m + 1 + (U64 - 1) = U64 + m := by omega
    rw [h1, Nat.add_mod_left, Nat.mod_eq_of_lt (by omega : m < U64),
      Nat.mod_eq_of_lt hr]

/-! ## Chain representation lemmas -/

theorem ChainRepr.mem_lt {vec : List (SlabEntry T)} {raw : Nat}
    {c : List Nat} (h : ChainRepr vec raw c) : ∀ i ∈ c, i < vec.length := by
  induction h with
  | nil => intro i hi; cases hi
  | cons e he ht hd hr ih =>
    intro j hj
    rcases List.mem_cons.mp hj with rfl | hj
    · exact (List.getElem?_eq_some.mp he).1
    · exact ih j hj

theorem ChainRepr.congr {vec vec' : List (SlabEntry T)} {raw : Nat}
    {c : List Nat} (h : ChainRepr vec raw c)
    (hsame : ∀ i ∈ c, vec'[i]? = vec[i]?) : ChainRepr vec' raw c := by
  induction h with
  | nil => exact .nil
  | cons e he ht hd hr ih =>
    refine .cons e ?_ ht hd (ih fun j hj => hsame j (List.mem_cons_of_mem _ hj))
    rw [hsame _ (List.mem_cons_self _ _)]; exact he

theorem ChainRepr.raw_le {vec : List (SlabEntry T)} {raw : Nat}
    {c : List Nat} (h : ChainRepr vec raw c) : raw ≤ vec.length := by
  cases h with
  | nil => exact Nat.zero_le _
  | cons e he ht hd hr => exact (List.getElem?_eq_some.mp he).1

theorem ChainRepr.vacant_of_mem {vec : List (SlabEntry T)} {raw : Nat}
    {c : List Nat} (h : ChainRepr vec raw c) :
    ∀ i ∈ c, ∃ e : SlabEntry T, vec[i]? = some e ∧ e.type = .vacant := by
  induction h with
  | nil => intro i hi; cases hi
  | cons e he ht hd hr ih =>
    intro j hj
    rcases List.mem_cons.mp hj with rfl | hj
    · exact ⟨e, he, ht⟩
    · exact ih j hj

/-! ## Branch characterisations of `slab::insert` -/

theorem insert_append_eq {s : SlabState T} {v : T} (h : s.vacant = 0) :
    s.insert v =
      .ok (⟨s.vec ++ [⟨.occupied, .inl v⟩], s.vacant⟩, s.vec.length) := by
  simp [SlabState.insert, SlabState.hasVacant, h]

theorem insert_reuse_eq {s : SlabState T} {v : T} {i : Nat} {e : SlabEntry T}
    (h : s.vacant = i + 1) (he : s.vec[i]? = some e) :
    s.insert v =
      .ok (⟨s.vec.set i ⟨.occupied, .inl v⟩,
        setVacant ((unionNext e.data + (U64 - 1)) % U64)⟩, i) := by
  simp [SlabState.insert, SlabState.hasVacant, SlabState.vacantIndex, h, he]

theorem remove_ok_eq {s : SlabState T} {idx : Nat} {e : SlabEntry T}
    (he : s.vec[idx]? = some e) :
    s.remove idx =
      .ok ⟨s.vec.set idx ⟨.vacant, .inr s.vacant⟩, setVacant idx⟩ := by
  simp [SlabState.remove, he]

/-! ## Preservation of the free-list invariant -/

theorem freeInv_empty : FreeInv (emptySlab T) :=
  ⟨[], .nil, List.nodup_nil, fun i e h => by simp [emptySlab] at h⟩

/-- Inversion of a chain with a non-`0` head value. -/
theorem ChainRepr.head_inv {vec : List (SlabEntry T)} {i0 : Nat}
    {c : List Nat} (h : ChainRepr vec (i0 + 1) c) :
    ∃ (e : SlabEntry T) (raw' : Nat) (rest : List Nat),
      c = i0 :: rest ∧ vec[i0]? = some e ∧ e.type = .vacant ∧
      e.data = Sum.inr raw' ∧ ChainRepr vec raw' rest := by
  cases h with
  | cons e he ht hd hr => exact ⟨e, _, _, rfl, he, ht, hd, hr⟩

theorem freeInv_insert {s s' : SlabState T} {v : T} {i : Nat}
    (hI : FreeInv s) (hlen : s.vec.length < U64)
    (h : s.insert v = .ok (s', i)) :
    FreeInv s' ∧ s'.vec.length ≤ s.vec.length + 1 := by
  obtain ⟨chain, hcr, hnd, hcov⟩ := hI
  by_cases hv : s.vacant = 0
  · -- free list empty: emplace_back
    rw [insert_append_eq hv] at h
    simp only [Except.ok.injEq, Prod.mk.injEq] at h
    obtain ⟨rfl, rfl⟩ := h
    rw [hv] at hcr
    have hch : chain = [] := by cases hcr; rfl
    subst hch
    refine ⟨⟨[], by rw [hv]; exact .nil, List.nodup_nil, ?_⟩, by simp⟩
    intro j e' hj
    simp only [List.not_mem_nil, false_iff]
    rcases Nat.lt_trichotomy j s.vec.length with hlt | heq | hgt
    · rw [List.getElem?_append_left hlt] at hj
      have := (hcov j e' hj).symm
      simp only [List.not_mem_nil, iff_false] at this
      exact this
    · subst heq
      rw [List.getElem?_concat_length] at hj
      injection hj with hj
      rw [← hj]
      intro hc
      exact absurd hc (by simp)
    · rw [List.getElem?_eq_none (by simp; omega)] at hj
      cases hj
  · -- free list non-empty: reuse the head slot
    obtain ⟨i0, hv0⟩ := Nat.exists_eq_succ_of_ne_zero hv
    rw [hv0] at hcr
    obtain ⟨e0, raw', rest, rfl, he0, ht0, hd0, hr'⟩ := hcr.head_inv
    rw [insert_reuse_eq hv0 he0] at h
    have hraw' : raw' < U64 := by
      have := hr'.raw_le
      omega
    have hvac : setVacant ((unionNext e0.data + (U64 - 1)) % U64) = raw' := by
      rw [hd0]; exact setVacant_roundTrip hraw'
    simp only [Except.ok.injEq, Prod.mk.injEq] at h
    obtain ⟨rfl, rfl⟩ := h
    have hnd' := List.nodup_cons.mp hnd
    have hi0len : i0 < s.vec.length := (List.getElem?_eq_some.mp he0).1
    refine ⟨⟨rest, ?_, hnd'.2, ?_⟩, by simp⟩
    · show ChainRepr _ (setVacant _) rest
      rw [hvac]
      refine hr'.congr fun j hj => ?_
      refine List.getElem?_set_ne fun hji => hnd'.1 ?_
      rw [hji]; exact hj
    · intro j e' hj
      by_cases hji : j = i0
      · subst hji
        rw [List.getElem?_set_self hi0len] at hj
        injection hj with hj
        constructor
        · intro hmem; exact absurd hmem hnd'.1
        · intro hty; rw [← hj] at hty; exact absurd hty (by simp)
      · rw [List.getElem?_set_ne fun hij => hji hij.symm] at hj
        rw [← hcov j e' hj]
        simp [List.mem_cons, hji]

theorem freeInv_remove {s s' : SlabState T} {idx : Nat} {e : SlabEntry T}
    (hI : FreeInv s) (hlen : s.vec.length < U64)
    (he : s.vec[idx]? = some e) (ho : e.type = .occupied)
    (h : s.remove idx = .ok s') :
    FreeInv s' ∧ s'.vec.length = s.vec.length := by
  obtain ⟨chain, hcr, hnd, hcov⟩ := hI
  rw [remove_ok_eq he] at h
  have hidx : idx < s.vec.length := (List.getElem?_eq_some.mp he).1
  simp only [Except.ok.injEq] at h
  obtain rfl := h
  have hnmem : idx ∉ chain := by
    intro hmem
    have := (hcov idx e he).mpr
    have hvt : e.type = .vacant := (hcov idx e he).mp hmem
    rw [ho] at hvt
    exact absurd hvt (by simp)
  have hvacval : setVacant idx = idx + 1 := setVacant_eq (by omega)
  refine ⟨⟨idx :: chain, ?_, List.nodup_cons.mpr ⟨hnmem, hnd⟩, ?_⟩, by simp⟩
  · show ChainRepr _ (setVacant idx) (idx :: chain)
    rw [hvacval]
    refine .cons ⟨.vacant, .inr s.vacant⟩ (List.getElem?_set_self hidx) rfl rfl ?_
    refine hcr.congr fun j hj => ?_
    refine List.getElem?_set_ne fun hji => hnmem ?_
    rw [hji]; exact hj
  · intro j e' hj
    by_cases hji : j = idx
    · subst hji
      rw [List.getElem?_set_self hidx] at hj
      injection hj with hj
      simp [← hj]
    · rw [List.getElem?_set_ne fun hij => hji hij.symm] at hj
      rw [List.mem_cons]
      have := hcov j e' hj
      simp [hji, this]

/-- Along any valid operation sequence short enough for slot indices to stay
inside `uint64_t` (which every physically realisable C++ execution is, since
the vector can hold at most `2 ^ 64 - 1` slots), every intermediate state
satisfies the free-list invariant. -/
theorem validRun_freeInv {T : Type} (ops : List (SlabOp T)) :
    ∀ s : SlabState T, FreeInv s → ValidSeq s ops →
      s.vec.length + ops.length < U64 →
      ∀ k s', runOps s (List.take k ops) = some s' → FreeInv s' := by
  induction ops with
  | nil =>
    intro s hI _ _ k s' hrun
    simp only [List.take_nil, runOps, Option.some.injEq] at hrun
    rwa [← hrun]
  | cons op rest ih =>
    intro s hI hv hlen k s' hrun
    cases k with
    | zero =>
      simp only [List.take_zero, runOps, Option.some.injEq] at hrun
      rwa [← hrun]
    | succ k =>
      rw [List.take_succ_cons] at hrun
      have hlen' : s.vec.length + rest.length + 1 < U64 := by
        simpa [Nat.add_comm, Nat.add_assoc, Nat.add_left_comm] using hlen
      cases hv with
      | ins hok hr =>
        simp only [runOps, stepOp, hok] at hrun
        obtain ⟨hI1, hl1⟩ := freeInv_insert hI (by omega) hok
        exact ih _ hI1 hr (by omega) k s' hrun
      | rem he ho hrm hr =>
        simp only [runOps, stepOp, hrm] at hrun
        obtain ⟨hI1, hl1⟩ := freeInv_remove hI (by omega) he ho hrm
        exact ih _ hI1 hr (by omega) k s' hrun

/-- Unpacking `FreeInv` into the claim's phrasing: reachable indices are in
range, visit only Vacant slots once each, and the Occupied indices are
exactly the complement — so the two sets are disjoint and cover
`[0, length)`. -/
theorem freeInv_full {s : SlabState T} (h : FreeInv s) :
    ∃ chain : List Nat,
      ChainRepr s.vec s.vacant chain ∧ chain.Nodup ∧
      (∀ i ∈ chain, i < s.vec.length) ∧
      (∀ i e, s.vec[i]? = some e → (i ∈ chain ↔ e.type = .vacant)) ∧
      (∀ i e, s.vec[i]? = some e → (e.type = .occupied ↔ i ∉ chain)) := by
  obtain ⟨chain, hcr, hnd, hcov⟩ := h
  refine ⟨chain, hcr, hnd, hcr.mem_lt, hcov, fun i e he => ?_⟩
  rw [hcov i e he]
  cases e.type <;> simp

/-- **C1**: for every sequence of slab `insert`/`remove` operations (each
`remove` applied to a currently Occupied in-range index), at every point of
the run the chain reachable from the free-list head `vacant` through the
`vacant.next` links stays inside `[0, length)`, visits only Vacant slots,
each exactly once with no cycles (it is a duplicate-free terminating list),
and the Occupied indices are exactly its complement in `[0, length)` — so
the two sets are disjoint and their union is the whole index range.  The
sequence-length bound keeps slot indices inside `uint64_t`, which every
execution of the C++ (whose vector holds fewer than `2 ^ 64` slots)
satisfies. -/
theorem slab_free_chain_partition {T : Type} (ops : List (SlabOp T))
    (hv : ValidSeq (emptySlab T) ops) (hn : ops.length < U64)
    (k : Nat) (s : SlabState T)
    (hrun : runOps (emptySlab T) (List.take k ops) = some s) :
    ∃ chain : List Nat,
      ChainRepr s.vec s.vacant chain ∧ chain.Nodup ∧
      (∀ i ∈ chain, i < s.vec.length) ∧
      (∀ i e, s.vec[i]? = some e → (i ∈ chain ↔ e.type = .vacant)) ∧
      (∀ i e, s.vec[i]? = some e → (e.type = .occupied ↔ i ∉ chain)) :=
  freeInv_full
    (validRun_freeInv ops (emptySlab T) freeInv_empty hv
      (by simpa [emptySlab] using hn) k s hrun)

/-- Witness for C1 at the concrete run `insert 7; remove 0` over `T = Nat`,
whose state after both operations is one Vacant slot headed by the free
list. -/
theorem slab_free_chain_partition_witness :
    ∃ chain : List Nat,
      ChainRepr (SlabState.mk [⟨.vacant, .inr 0⟩] 1 : SlabState Nat).vec
          (SlabState.mk [⟨.vacant, .inr 0⟩] 1 : SlabState Nat).vacant chain ∧
      chain.Nodup ∧
      (∀ i ∈ chain,
        i < (SlabState.mk [⟨.vacant, .inr 0⟩] 1 : SlabState Nat).vec.length) ∧
      (∀ i e, (SlabState.mk [⟨.vacant, .inr 0⟩] 1 : SlabState Nat).vec[i]? =
        some e → (i ∈ chain ↔ e.type = .vacant)) ∧
      (∀ i e, (SlabState.mk [⟨.vacant, .inr 0⟩] 1 : SlabState Nat).vec[i]? =
        some e → (e.type = .occupied ↔ i ∉ chain)) :=
  have hseq : ValidSeq (emptySlab Nat) [SlabOp.ins 7, SlabOp.rem 0] :=
    ValidSeq.ins
      (show (emptySlab Nat).insert 7 = .ok (⟨[⟨.occupied, .inl 7⟩], 0⟩, 0)
        from rfl)
      (ValidSeq.rem
        (show (SlabState.mk [⟨.occupied, .inl 7⟩] 0 : SlabState Nat).vec[0]? =
          some ⟨.occupied, .inl 7⟩ from rfl)
        rfl
        (show SlabState.remove ⟨[⟨.occupied, .inl 7⟩], 0⟩ 0 =
          .ok ⟨[⟨.vacant, .inr 0⟩], 1⟩ from rfl)
        (ValidSeq.nil _))
  slab_free_chain_partition [SlabOp.ins 7, SlabOp.rem 0] hseq
    (by decide) 2 _ (by decide)

/-! ## Structure of the `foreach` chunking loop -/

theorem chunksGoFuel_join_ranges (L ps : Nat) (hps : 0 < ps) :
    ∀ fuel p, L - p ≤ fuel → p ≤ L →
      ((chunksGoFuel L ps fuel p).map
        (fun c => List.range' c.1 (c.2 - c.1))).flatten
          = List.range' p (L - p) := by
  intro fuel
  induction fuel with
  | zero =>
    intro p hf hp
    have hpL : p = L := by omega
    subst hpL
    simp [chunksGoFuel]
  | succ fuel ih =>
    intro p hf hp
    simp only [chunksGoFuel]
    have hmin : min (L - p) ps ≤ L - p := Nat.min_le_left _ _
    by_cases h : p < p + min (L - p) ps ∧ p + min (L - p) ps < L
    · rw [if_pos h]
      simp only [List.map_cons, List.flatten_cons]
      rw [ih (p + min (L - p) ps) (by omega) (by omega)]
      have harr := List.range'_append p (min (L - p) ps)
        (L - (p + min (L - p) ps)) 1
      simp only [Nat.one_mul] at harr
      rw [show p + min (L - p) ps - p = min (L - p) ps by omega, harr]
      congr 1
      omega
    · rw [if_neg h]
      have heL : p + min (L - p) ps - p = L - p := by
        rcases Nat.eq_or_lt_of_le hp with rfl | hplt
        · omega
        · have h1 : 1 ≤ min (L - p) ps := le_min (by omega) hps
          omega
      simp [heL]

theorem chunksGoFuel_length (L ps : Nat) (hps : 0 < ps) :
    ∀ fuel p, L - p ≤ fuel → p < L →
      (chunksGoFuel L ps fuel p).length = (L - p + ps - 1) / ps := by
  intro fuel
  induction fuel with
  | zero =>
    intro p hf hp
    exact ((by omega : False)).elim
  | succ fuel ih =>
    intro p hf hp
    simp only [chunksGoFuel]
    have hmin : min (L - p) ps ≤ L - p := Nat.min_le_left _ _
    have hmin1 : 1 ≤ min (L - p) ps := le_min (by omega) hps
    by_cases h : p < p + min (L - p) ps ∧ p + min (L - p) ps < L
    · rw [if_pos h]
      -- the guard forces the chunk to be a full `ps` slots
      have hfull : min (L - p) ps = ps := by
        rcases Nat.lt_or_ge (L - p) ps with hc | hc
        · omega
        · exact Nat.min_eq_right hc
      rw [hfull] at h
      have ihe := ih (p + ps) (by omega) h.2
      simp only [List.length_cons, hfull, ihe]
      have ha : L - p > ps := by omega
      rw [show L - (p + ps) + ps - 1 = (L - p - ps - 1) + ps by omega,
        Nat.add_div_right _ hps,
        show L - p + ps - 1 = (L - p - 1) + ps by omega,
        Nat.add_div_right _ hps,
        show L - p - 1 = (L - p - ps - 1) + ps by omega,
        Nat.add_div_right _ hps]
    · rw [if_neg h]
      -- last (or only) chunk: `1 ≤ L - p ≤ ps`
      have hle : L - p ≤ ps := by omega
      simp only [List.length_cons, List.length_nil]
      symm
      apply Nat.div_eq_of_lt_le <;> omega

/-- If `visitOf` fires on `a`, the produced index is `a` itself. -/
theorem visitOf_fst {s : SlabState T} {a : Nat} {pr : Nat × (T ⊕ Nat)}
    (h : s.visitOf a = some pr) : pr.1 = a := by
  unfold SlabState.visitOf at h
  rcases hg : s.vec[a]? with _ | e <;> rw [hg] at h <;> dsimp only at h
  · cases h
  · by_cases ht : e.type = .vacant
    · rw [if_pos ht] at h; cases h
    · rw [if_neg ht] at h
      injection h with h
      rw [← h]

/-- The indices a worker reports form a sublist of its chunk's index
range. -/
theorem chunkVisits_fst_sublist (s : SlabState T) (p e : Nat) :
    ((s.chunkVisits p e).map Prod.fst).Sublist (List.range' p (e - p)) := by
  unfold SlabState.chunkVisits
  generalize List.range' p (e - p) = l
  induction l with
  | nil => simp
  | cons a l ih =>
    rcases hv : s.visitOf a with _ | pr
    · simp only [List.filterMap_cons, hv]
      exact ih.cons a
    · simp only [List.filterMap_cons, hv, List.map_cons, visitOf_fst hv]
      exact ih.cons₂ a

/-- The indices produced by filtering any index list through `visitOf` form
a sublist of that list. -/
theorem filterMap_visitOf_fst_sublist (s : SlabState T) (l : List Nat) :
    ((l.filterMap s.visitOf).map Prod.fst).Sublist l := by
  induction l with
  | nil => simp
  | cons a l ih =>
    rcases hv : s.visitOf a with _ | pr
    · simp only [List.filterMap_cons, hv]
      exact ih.cons a
    · simp only [List.filterMap_cons, hv, List.map_cons, visitOf_fst hv]
      exact ih.cons₂ a

/-- A two-valued tag that is not Vacant is Occupied. -/
theorem not_vacant_iff_occupied {t : EntryType} :
    ¬t = .vacant ↔ t = .occupied := by
  cases t <;> simp

/-- The chunk size computed by `foreach` is positive whenever the vector is
non-empty and `nthreads ≥ 1`. -/
theorem partSize_pos {L N : Nat} (hL : 0 < L) (hN : 1 ≤ N) :
    0 < partSize L N := by
  unfold partSize
  split
  · exact Nat.div_pos (by omega) (by omega)
  · omega

/-- A `foreach` run visits, across all its workers, exactly what one pass
over the whole index range `[0, L)` visits — regardless of `nthreads`. -/
theorem scanVisits_eq {T : Type} (s : SlabState T) (N : Nat) (hN : 1 ≤ N) :
    s.scanVisits N = (List.range' 0 s.vec.length).filterMap s.visitOf := by
  rcases Nat.eq_zero_or_pos s.vec.length with hL | hL
  · simp [SlabState.scanVisits, SlabState.foreachVisits, SlabState.scanChunks,
      foreachChunks, chunksGo, partSize, chunksGoFuel, SlabState.chunkVisits,
      hL]
  · have hps : 0 < partSize s.vec.length N := partSize_pos hL hN
    unfold SlabState.scanVisits SlabState.foreachVisits SlabState.scanChunks
      foreachChunks chunksGo SlabState.chunkVisits
    rw [show (fun c : Nat × Nat =>
        (List.range' c.1 (c.2 - c.1)).filterMap s.visitOf)
      = (fun l => l.filterMap s.visitOf) ∘
        (fun c : Nat × Nat => List.range' c.1 (c.2 - c.1)) from rfl]
    rw [← List.map_map, ← List.filterMap_flatten]
    rw [chunksGoFuel_join_ranges _ _ hps _ 0 (by omega) (by omega)]
    simp

/-- Membership characterisation of the visit list: a pair is visited exactly
when its index holds an Occupied entry and the payload is that entry's
storage. -/
theorem scanVisits_mem {T : Type} (s : SlabState T) (N : Nat) (hN : 1 ≤ N)
    (i : Nat) (d : T ⊕ Nat) :
    (i, d) ∈ s.scanVisits N ↔
      ∃ e : SlabEntry T, s.vec[i]? = some e ∧ e.type = .occupied ∧
        d = e.data := by
  rw [scanVisits_eq s N hN, List.mem_filterMap]
  constructor
  · rintro ⟨a, ha, hva⟩
    obtain rfl : i = a := visitOf_fst hva
    unfold SlabState.visitOf at hva
    rcases hg : s.vec[i]? with _ | e <;> rw [hg] at hva <;> dsimp only at hva
    · cases hva
    · by_cases ht : e.type = .vacant
      · rw [if_pos ht] at hva; cases hva
      · rw [if_neg ht] at hva
        injection hva with hva
        simp only [Prod.mk.injEq] at hva
        exact ⟨e, rfl, not_vacant_iff_occupied.mp ht, hva.2.symm⟩
  · rintro ⟨e, hg, hocc, rfl⟩
    have hi : i < s.vec.length := (List.getElem?_eq_some.mp hg).1
    refine ⟨i, ?_, ?_⟩
    · rw [List.mem_range'_1]; omega
    · unfold SlabState.visitOf
      rw [hg]
      dsimp only
      rw [if_neg (by rw [hocc]; simp)]

/-- **C7**: for every arena state and every `nthreads = N ≥ 1`, the
callback invocations of `foreach` with `N` workers, taken together, are
exactly those of the single-worker run (here even as equal lists once the
workers' outputs are concatenated in chunk order, so a fortiori the same
set); every Occupied slot is visited exactly once (the visited indices are
duplicate-free) with its stored storage cell as payload, and no Vacant slot
is ever visited — runs differ only in invocation interleaving. -/
theorem scan_concurrency_equiv {T : Type} (s : SlabState T) (N : Nat)
    (hN : 1 ≤ N) :
    s.scanVisits N = s.scanVisits 1 ∧
    ((s.scanVisits N).map Prod.fst).Nodup ∧
    ∀ i d, (i, d) ∈ s.scanVisits N ↔
      ∃ e : SlabEntry T, s.vec[i]? = some e ∧ e.type = .occupied ∧
        d = e.data := by
  refine ⟨?_, ?_, fun i d => scanVisits_mem s N hN i d⟩
  · rw [scanVisits_eq s N hN, scanVisits_eq s 1 (Nat.le_refl 1)]
  · rw [scanVisits_eq s N hN]
    exact (filterMap_visitOf_fst_sublist s _).nodup (List.nodup_range' 0 _)

/-- Witness for C7 at a concrete three-slot arena (Occupied, Vacant,
Occupied) scanned with two workers. -/
theorem scan_concurrency_equiv_witness :
    (SlabState.mk [⟨.occupied, .inl 10⟩, ⟨.vacant, .inr 0⟩,
        ⟨.occupied, .inl 30⟩] 2 : SlabState Nat).scanVisits 2 =
      (SlabState.mk [⟨.occupied, .inl 10⟩, ⟨.vacant, .inr 0⟩,
        ⟨.occupied, .inl 30⟩] 2 : SlabState Nat).scanVisits 1 ∧
    (((SlabState.mk [⟨.occupied, .inl 10⟩, ⟨.vacant, .inr 0⟩,
        ⟨.occupied, .inl 30⟩] 2 : SlabState Nat).scanVisits 2).map
          Prod.fst).Nodup ∧
    ∀ i d, (i, d) ∈ (SlabState.mk [⟨.occupied, .inl 10⟩, ⟨.vacant, .inr 0⟩,
        ⟨.occupied, .inl 30⟩] 2 : SlabState Nat).scanVisits 2 ↔
      ∃ e : SlabEntry Nat,
        (SlabState.mk [⟨.occupied, .inl 10⟩, ⟨.vacant, .inr 0⟩,
          ⟨.occupied, .inl 30⟩] 2 : SlabState Nat).vec[i]? = some e ∧
        e.type = .occupied ∧ d = e.data :=
  scan_concurrency_equiv _ 2 (by decide)

/-- **C8 (counterexample)**: the claim that `foreach` splits `[0, L)` into
*exactly* `N` chunks fails already at `L = 3`, `N = 2`: `partsize` is
`3 / 2 = 1` and the loop emits the three chunks `(0,1) (1,2) (2,3)`. -/
theorem scan_chunk_count_counterexample :
    (SlabState.mk [⟨.occupied, .inl 1⟩, ⟨.occupied, .inl 2⟩,
        ⟨.occupied, .inl 3⟩] 0 : SlabState Nat).scanChunks 2
      = [(0, 1), (1, 2), (2, 3)] ∧
    ¬((SlabState.mk [⟨.occupied, .inl 1⟩, ⟨.occupied, .inl 2⟩,
        ⟨.occupied, .inl 3⟩] 0 : SlabState Nat).scanChunks 2).length = 2 :=
  ⟨rfl, by decide⟩

/-- **C8 (amended)**: for every arena of length `L ≥ 1` and `nthreads =
N ≥ 1`, `foreach` splits `[0, L)` into contiguous chunks that cover the
range without overlap (their ranges concatenate, in order, to exactly
`[0, L)`); the number of chunks is `⌈L / partsize⌉` for
`partsize = (L > N ? L / N : L)` — which may differ from `N` — and within
each chunk the callback is invoked on Occupied slots in strictly ascending
index order. -/
theorem scan_chunk_structure {T : Type} (s : SlabState T) (N : Nat)
    (hL : 1 ≤ s.vec.length) (hN : 1 ≤ N) :
    ((s.scanChunks N).map (fun c => List.range' c.1 (c.2 - c.1))).flatten
        = List.range s.vec.length ∧
    (s.scanChunks N).length =
      (s.vec.length + partSize s.vec.length N - 1) /
        partSize s.vec.length N ∧
    ∀ c ∈ s.scanChunks N,
      ((s.chunkVisits c.1 c.2).map Prod.fst).Pairwise (· < ·) := by
  have hps : 0 < partSize s.vec.length N := partSize_pos (by omega) hN
  refine ⟨?_, ?_, ?_⟩
  · unfold SlabState.scanChunks foreachChunks chunksGo
    rw [chunksGoFuel_join_ranges _ _ hps _ 0 (by omega) (by omega),
      List.range_eq_range']
    simp
  · unfold SlabState.scanChunks foreachChunks chunksGo
    rw [chunksGoFuel_length _ _ hps _ 0 (by omega) (by omega)]
    simp
  · intro c _
    unfold SlabState.chunkVisits
    exact List.Pairwise.sublist (filterMap_visitOf_fst_sublist s _)
      (List.pairwise_lt_range' c.1 (c.2 - c.1))

/-- Witness for the amended C8 at the same three-slot arena with two
workers. -/
theorem scan_chunk_structure_witness :
    (((SlabState.mk [⟨.occupied, .inl 1⟩, ⟨.occupied, .inl 2⟩,
        ⟨.occupied, .inl 3⟩] 0 : SlabState Nat).scanChunks 2).map
      (fun c => List.range' c.1 (c.2 - c.1))).flatten = List.range 3 ∧
    ((SlabState.mk [⟨.occupied, .inl 1⟩, ⟨.occupied, .inl 2⟩,
        ⟨.occupied, .inl 3⟩] 0 : SlabState Nat).scanChunks 2).length =
      (3 + partSize 3 2 - 1) / partSize 3 2 ∧
    ∀ c ∈ (SlabState.mk [⟨.occupied, .inl 1⟩, ⟨.occupied, .inl 2⟩,
        ⟨.occupied, .inl 3⟩] 0 : SlabState Nat).scanChunks 2,
      (((SlabState.mk [⟨.occupied, .inl 1⟩, ⟨.occupied, .inl 2⟩,
        ⟨.occupied, .inl 3⟩] 0 : SlabState Nat).chunkVisits c.1 c.2).map
          Prod.fst).Pairwise (· < ·) :=
  scan_chunk_structure _ 2 (by decide) (by decide)

/-- **C6**: `slab::insert` reuses before appending.  If the free list is
non-empty (and the head is a well-formed link, as every reachable state
guarantees), the call returns the current free-head index `vacant - 1`,
overwrites that slot with an Occupied entry holding the payload, advances
the free head to the slot's stored `next` link, and leaves the length
unchanged; if the free list is empty it appends one new Occupied slot and
returns the old length (`vec.size() - 1` after growth). -/
theorem slab_insert_reuse_before_append {T : Type} (s : SlabState T)
    (v : T) :
    (∀ (h0 : s.vacant ≠ 0) (e : SlabEntry T) (r : Nat),
      s.vec[s.vacant - 1]? = some e → e.data = Sum.inr r → r < U64 →
      s.insert v = .ok
        (⟨s.vec.set (s.vacant - 1) ⟨.occupied, .inl v⟩, r⟩, s.vacant - 1) ∧
      (s.vec.set (s.vacant - 1)
        (⟨.occupied, .inl v⟩ : SlabEntry T)).length = s.vec.length) ∧
    (s.vacant = 0 →
      s.insert v = .ok
        (⟨s.vec ++ [⟨.occupied, .inl v⟩], s.vacant⟩, s.vec.length) ∧
      (s.vec ++ [(⟨.occupied, .inl v⟩ : SlabEntry T)]).length
        = s.vec.length + 1) := by
  constructor
  · intro h0 e r he hd hr
    have hv0 : s.vacant = (s.vacant - 1) + 1 := by omega
    refine ⟨?_, by simp⟩
    rw [insert_reuse_eq hv0 he, hd,
      show unionNext (Sum.inr r : T ⊕ Nat) = r from rfl,
      setVacant_roundTrip hr]
  · intro h0
    exact ⟨insert_append_eq h0, by simp⟩

/-- Witness for C6: a reuse on a one-slot free list and an append on an
empty free list, both at concrete states. -/
theorem slab_insert_reuse_before_append_witness :
    SlabState.insert (⟨[⟨.vacant, .inr 0⟩], 1⟩ : SlabState Nat) 5 =
      .ok (⟨[⟨.occupied, .inl 5⟩], 0⟩, 0) ∧
    SlabState.insert (⟨[], 0⟩ : SlabState Nat) 7 =
      .ok (⟨[⟨.occupied, .inl 7⟩], 0⟩, 0) :=
  ⟨((slab_insert_reuse_before_append
      (⟨[⟨.vacant, .inr 0⟩], 1⟩ : SlabState Nat) 5).1
    (by decide) ⟨.vacant, .inr 0⟩ 0 rfl rfl (by decide)).1,
   ((slab_insert_reuse_before_append (⟨[], 0⟩ : SlabState Nat) 7).2 rfl).1⟩

/-- **C9**: `slab::get` performs only the `vec.at` bounds check.  For every
`idx < length` it succeeds and returns the slot's storage cell, with no
occupancy test — in particular on a Vacant slot it succeeds and the
returned storage is the slot's free-list link, reinterpreted as a payload;
only `idx ≥ length` is rejected (`std::out_of_range`). -/
theorem slab_get_no_occupancy_check {T : Type} (s : SlabState T)
    (idx : Nat) :
    (∀ h : idx < s.vec.length, ∃ e : SlabEntry T,
      s.vec[idx]? = some e ∧ s.get idx = .ok e.data) ∧
    (∀ (e : SlabEntry T) (r : Nat), s.vec[idx]? = some e →
      e.type = .vacant → e.data = Sum.inr r →
      s.get idx = .ok (Sum.inr r)) ∧
    (s.vec.length ≤ idx → s.get idx = .error .outOfRange) := by
  refine ⟨?_, ?_, ?_⟩
  · intro h
    rcases hg : s.vec[idx]? with _ | e
    · exact absurd hg (by simp [List.getElem?_eq_some]; omega)
    · exact ⟨e, rfl, by unfold SlabState.get; rw [hg]⟩
  · intro e r hg _ hd
    unfold SlabState.get
    rw [hg]
    dsimp only
    rw [hd]
  · intro h
    unfold SlabState.get
    rw [List.getElem?_eq_none h]

/-- Witness for C9: a one-slot arena whose only slot is Vacant — `get 0`
succeeds with the raw link, `get 1` is out of range. -/
theorem slab_get_no_occupancy_check_witness :
    SlabState.get (⟨[⟨.vacant, .inr 0⟩], 1⟩ : SlabState Nat) 0 =
      .ok (Sum.inr 0) ∧
    SlabState.get (⟨[⟨.vacant, .inr 0⟩], 1⟩ : SlabState Nat) 1 =
      .error .outOfRange :=
  ⟨(slab_get_no_occupancy_check
      (⟨[⟨.vacant, .inr 0⟩], 1⟩ : SlabState Nat) 0).2.1
    ⟨.vacant, .inr 0⟩ 0 rfl rfl rfl,
   (slab_get_no_occupancy_check
      (⟨[⟨.vacant, .inr 0⟩], 1⟩ : SlabState Nat) 1).2.2 (by decide)⟩

/-- **C10**: `slab::remove` on an Occupied in-range index mutates only the
targeted slot (now tagged Vacant with its link set to the previous raw free
head, i.e. the previous head offset by one) and the `vacant` head field
(now `idx + 1`, the encoding of `idx`); every other slot and the arena
length are untouched. -/
theorem slab_remove_frame {T : Type} (s : SlabState T) (idx : Nat)
    (e : SlabEntry T) (he : s.vec[idx]? = some e)
    (ho : e.type = .occupied) :
    ∃ s' : SlabState T, s.remove idx = .ok s' ∧
      s'.vec.length = s.vec.length ∧
      s'.vacant = (idx + 1) % U64 ∧
      s'.vec[idx]? = some ⟨.vacant, .inr s.vacant⟩ ∧
      ∀ j, j ≠ idx → s'.vec[j]? = s.vec[j]? := by
  refine ⟨_, remove_ok_eq he, by simp, rfl, ?_, ?_⟩
  · exact List.getElem?_set_self (List.getElem?_eq_some.mp he).1
  · intro j hj
    exact List.getElem?_set_ne fun h => hj h.symm

/-- Witness for C10: removing slot 0 of a two-slot arena leaves slot 1 and
the length intact. -/
theorem slab_remove_frame_witness :
    ∃ s' : SlabState Nat,
      SlabState.remove (⟨[⟨.occupied, .inl 1⟩, ⟨.occupied, .inl 2⟩], 0⟩ :
        SlabState Nat) 0 = .ok s' ∧
      s'.vec.length = (⟨[⟨.occupied, .inl 1⟩, ⟨.occupied, .inl 2⟩], 0⟩ :
        SlabState Nat).vec.length ∧
      s'.vacant = (0 + 1) % U64 ∧
      s'.vec[0]? = some ⟨.vacant, .inr 0⟩ ∧
      ∀ j, j ≠ 0 → s'.vec[j]? =
        (⟨[⟨.occupied, .inl 1⟩, ⟨.occupied, .inl 2⟩], 0⟩ :
          SlabState Nat).vec[j]? :=
  slab_remove_frame _ 0 ⟨.occupied, .inl 1⟩ rfl rfl

/-! ## The end-to-end scenario of `main` -/

/-- State after `kv.insert(foo(5, 10))` on a fresh store. -/
def kvScn1 : KvState := (kv0.insert ⟨5, 10⟩).1

/-- State after the further `kv.insert(foo(15, 20))`. -/
def kvScn2 : KvState := (kvScn1.insert ⟨15, 20⟩).1

/-- State after the further `kv.remove(5)`. -/
def kvScn3 : KvState := (kvScn2.remove 5).1

/-- State after the further `kv.remove(15)`. -/
def kvScn4 : KvState := (kvScn3.remove 15).1

/-- State after re-inserting `foo(5, 10)`. -/
def kvScn5 : KvState := (kvScn4.insert ⟨5, 10⟩).1

/-- State after re-inserting `foo(15, 20)`. -/
def kvScn6 : KvState := (kvScn5.insert ⟨15, 20⟩).1

/-- State after the final `kv.insert(foo(20, 25))`. -/
def kvScn7 : KvState := (kvScn6.insert ⟨20, 25⟩).1

/-- The end-to-end scenario: keys 5 and 15 first occupy slots 0 and 1;
after removing both and re-inserting, LIFO free order places them at slots
1 and 0 with their payloads intact, and a fresh key 20 appends slot 2. -/
def kvScenarioHolds : Prop :=
  (kv0.insert ⟨5, 10⟩).2 = .ok true ∧ kvScn1.map.find 5 = some 0 ∧
  (kvScn1.insert ⟨15, 20⟩).2 = .ok true ∧ kvScn2.map.find 15 = some 1 ∧
  kvScn2.slab.get 0 = .ok (.inl ⟨5, 10⟩) ∧
  kvScn2.slab.get 1 = .ok (.inl ⟨15, 20⟩) ∧
  (kvScn2.remove 5).2 = .ok () ∧ (kvScn3.remove 15).2 = .ok () ∧
  (kvScn4.insert ⟨5, 10⟩).2 = .ok true ∧ kvScn5.map.find 5 = some 1 ∧
  (kvScn5.insert ⟨15, 20⟩).2 = .ok true ∧ kvScn6.map.find 15 = some 0 ∧
  kvScn6.slab.get 1 = .ok (.inl ⟨5, 10⟩) ∧
  kvScn6.slab.get 0 = .ok (.inl ⟨15, 20⟩) ∧
  (kvScn6.insert ⟨20, 25⟩).2 = .ok true ∧ kvScn7.map.find 20 = some 2 ∧
  kvScn7.slab.vec.length = 3

/-- **C3**: freed slots are reused in LIFO order — after `insert(v1) ↦ i1`,
`remove(i1)`, the next `insert(v2)` lands on `i1` again (for any starting
state; `i1 + 1 < 2 ^ 64` always holds in C++ since `i1` is a slot index of
a `size_t`-sized vector) — and concretely the scenario of `main` reuses
slots 1 and 0 in LIFO order and then appends slot 2. -/
theorem slab_lifo_reuse {T : Type} (s s1 s2 s3 : SlabState T) (v1 v2 : T)
    (i1 i2 : Nat) (h1 : s.insert v1 = .ok (s1, i1)) (hi : i1 + 1 < U64)
    (h2 : s1.remove i1 = .ok s2) (h3 : s2.insert v2 = .ok (s3, i2)) :
    i2 = i1 ∧ kvScenarioHolds := by
  constructor
  · -- the removed slot becomes the free head and is handed right back
    unfold SlabState.remove at h2
    rcases hg : s1.vec[i1]? with _ | e1 <;> rw [hg] at h2
    · cases h2
    · simp only [Except.ok.injEq] at h2
      obtain rfl := h2
      have hi1len : i1 < s1.vec.length := (List.getElem?_eq_some.mp hg).1
      have hvac : (setVacant i1) = i1 + 1 := setVacant_eq hi
      have hv0 : setVacant i1 = (setVacant i1 - 1) + 1 := by omega
      have hset : (s1.vec.set i1
          (⟨.vacant, .inr s1.vacant⟩ : SlabEntry T))[setVacant i1 - 1]? =
          some ⟨.vacant, .inr s1.vacant⟩ := by
        rw [hvac]
        simpa using List.getElem?_set_self hi1len
      rw [insert_reuse_eq hv0 hset] at h3
      simp only [Except.ok.injEq, Prod.mk.injEq] at h3
      rw [← h3.2, hvac]
      omega
  · exact ⟨rfl, rfl, rfl, rfl, rfl, rfl, rfl, rfl, rfl, rfl, rfl, rfl, rfl,
      rfl, rfl, rfl, rfl⟩

/-- Witness for C3 at the concrete triple `insert 1 ↦ 0; remove 0;
insert 2 ↦ 0` from an empty slab. -/
theorem slab_lifo_reuse_witness : 0 = 0 ∧ kvScenarioHolds :=
  slab_lifo_reuse (emptySlab Nat) ⟨[⟨.occupied, .inl 1⟩], 0⟩
    ⟨[⟨.vacant, .inr 0⟩], 1⟩ ⟨[⟨.occupied, .inl 2⟩], 0⟩ 1 2 0 0
    rfl (by decide) rfl rfl

/-- **C5**: `kv::insert` on a key already present in the volatile index
fails (`return false`, the caller-visible form of `AlreadyExists`) before
touching anything: the returned state — arena and index alike — is exactly
the input state. -/
theorem kv_insert_duplicate_no_mutation (st : KvState) (f : Foo) (i : Nat)
    (hf : st.map.find f.key = some i) :
    st.insert f = (st, .ok false) := by
  unfold KvState.insert
  rw [hf]
  rfl

/-- Witness for C5: inserting key 5 (already at slot 0) changes nothing. -/
theorem kv_insert_duplicate_no_mutation_witness :
    KvState.insert ⟨⟨[⟨.occupied, .inl ⟨5, 10⟩⟩], 0⟩, [(5, 0)]⟩ ⟨5, 99⟩ =
      (⟨⟨[⟨.occupied, .inl ⟨5, 10⟩⟩], 0⟩, [(5, 0)]⟩, .ok false) :=
  kv_insert_duplicate_no_mutation _ ⟨5, 99⟩ 0 rfl

/-- **C2 (code evaluation)**: `kv::remove` of an *absent* key does not fail
with `NotFound` — there is no lookup check at all.  `map[key]` value-
initialises the missing entry to slot `0`, so the call vacates slot 0 (here
occupied by key 5) and returns normally, leaving the store mutated and key
5's index entry dangling on a now-Vacant slot. -/
theorem kv_remove_missing_key_eval :
    (KvState.mk ⟨[⟨.occupied, .inl ⟨5, 10⟩⟩], 0⟩ [(5, 0)]).remove 7 =
      (⟨⟨[⟨.vacant, .inr 0⟩], 1⟩, [(5, 0)]⟩, .ok ()) ∧
    ((KvState.mk ⟨[⟨.occupied, .inl ⟨5, 10⟩⟩], 0⟩ [(5, 0)]).remove 7).1 ≠
      KvState.mk ⟨[⟨.occupied, .inl ⟨5, 10⟩⟩], 0⟩ [(5, 0)] :=
  ⟨rfl, by decide⟩

/-- **C4 (code evaluation)**: `kv::get` of an *absent* key does not fail
with `NotFound` and is not read-only: `map[key]` inserts `key ↦ 0` into the
volatile index and the call returns slot 0's storage (here the payload of
the unrelated key 5). -/
theorem kv_get_missing_key_eval :
    (KvState.mk ⟨[⟨.occupied, .inl ⟨5, 10⟩⟩], 0⟩ [(5, 0)]).get 7 =
      (⟨⟨[⟨.occupied, .inl ⟨5, 10⟩⟩], 0⟩, [(5, 0), (7, 0)]⟩,
        .ok (.inl ⟨5, 10⟩)) ∧
    ((KvState.mk ⟨[⟨.occupied, .inl ⟨5, 10⟩⟩], 0⟩ [(5, 0)]).get 7).1.map ≠
      [(5, 0)] :=
  ⟨rfl, by decide⟩
